import Mathlib

/-!
# Verification of `company_subsidiaries.py` (google_search_playwright_v1)

Shallow embedding of the hierarchical concurrent subsidiary search in
`company_subsidiaries.py` and proofs about it.

Modelling decisions, keyed to the source:

* Python strings are Lean `String`s; `company.lower().strip()` (line 75) is
  embedded as `pyLowerStrip`, which maps `Char.toLower` over the characters and
  then trims ASCII whitespace from both ends, mirroring CPython's behaviour on
  the ASCII fragment.
* The external browser search is abstracted as a raw provider
  `p : String → Option (List String)`: `p name = none` models any exception
  (timeout, parse error, ...) inside `get_subsidiaries_single_search`, which the
  code catches and turns into `[]` (lines 47-49); `p name = some raws` models
  the list of `data-entityname` attribute values scraped from the page, which
  the code strips, filters and dedupes order-preservingly (lines 39-46).
* Python dicts of company name to node are association lists `HForest`
  (insertion-ordered, keys unique within one dict in every reachable state).
* Concurrency: the only shared mutable state is `searched_companies`, accessed
  in a single `with searched_lock` critical section (lines 74-78), so every
  observable behaviour of the threaded program is a serialization of the
  atomic check-and-mark steps of the workers, constrained by causality (a
  worker for a subsidiary exists only after its parent's lookup returned).
  We model this as a small-step semantics on a state `St` holding the visited
  set, the queue of pending worker tasks, the tree under construction, the
  list of names actually passed to the lookup provider (`lookups`) and the list of
  check-and-mark events (`marks`).  A schedule `List Nat` picks which pending
  task runs its (atomic) body next; an out-of-range index is a stutter step.
  Every interleaving the `ThreadPoolExecutor`s can produce corresponds to a
  schedule, so facts proved for all schedules hold for the real program.
* `search_level`'s recursion (line 105) is flattened into task spawning: a
  worker whose lookup returns a non-empty list at `depth < max_depth` spawns
  one child task per discovered name; at `depth = max_depth` it records the
  discovered names as leaves directly (lines 107-109), spawning nothing and
  marking nothing.
-/

/-- ASCII whitespace as recognised by Python's `str.strip()`. -/
def pySpace (c : Char) : Bool :=
  c = ' ' || c = '\t' || c = '\n' || c = '\r' || c = '\x0b' || c = '\x0c'

/-- Drop `pySpace` characters from both ends of a character list. -/
def trimChars (l : List Char) : List Char :=
  ((l.dropWhile pySpace).reverse.dropWhile pySpace).reverse

/-- Python `s.strip()` (used on scraped attribute values, line 43-44). -/
def pyStrip (s : String) : String :=
  String.mk (trimChars s.data)

/-- Python `company.lower().strip()` (line 75): the normalized form used as the
dedup key in the shared `searched_companies` set. -/
def pyLowerStrip (s : String) : String :=
  String.mk (trimChars (s.data.map Char.toLower))

/-- Order-preserving exact dedup, as `list(dict.fromkeys(names))` (line 46):
keeps the first occurrence of each string. -/
def dedupeKeep : List String → List String → List String
  | [], _ => []
  | x :: xs, seen => if x ∈ seen then dedupeKeep xs seen else x :: dedupeKeep xs (x :: seen)

/-- `get_subsidiaries_single_search` (lines 27-52): on provider success the
scraped values are stripped, empties dropped and exact duplicates removed
keeping first occurrences; on any provider exception the result is `[]`. -/
def get_subsidiaries_single_search (p : String → Option (List String)) (name : String) :
    List String :=
  match p name with
  | some raws => dedupeKeep ((raws.map pyStrip).filter (fun v => v ≠ "")) []
  | none => []

/-- The nested result dictionaries: a node is its `"subsidiaries"` dict, an
insertion-ordered association list from company name to child node. -/
inductive HTree where
  | mk : List (String × HTree) → HTree

/-- The contents of one `"subsidiaries"` dict. -/
abbrev HForest := List (String × HTree)

/-- The children map of a node. -/
def HTree.subs : HTree → HForest
  | .mk f => f

mutual
/-- Boolean equality on trees. -/
def htreeBeq : HTree → HTree → Bool
  | .mk f, .mk g => hforestBeq f g
/-- Boolean equality on forests. -/
def hforestBeq : HForest → HForest → Bool
  | [], [] => true
  | (k, t) :: xs, (k2, u) :: ys => k = k2 && htreeBeq t u && hforestBeq xs ys
  | _, _ => false
end

mutual
def htreeBeq_iff : ∀ a b : HTree, htreeBeq a b = true ↔ a = b
  | .mk f, .mk g => by
    simp only [htreeBeq, HTree.mk.injEq]
    exact hforestBeq_iff f g
def hforestBeq_iff : ∀ a b : HForest, hforestBeq a b = true ↔ a = b
  | [], [] => by simp [hforestBeq]
  | [], (k2, u) :: ys => by simp [hforestBeq]
  | (k, t) :: xs, [] => by simp [hforestBeq]
  | (k, t) :: xs, (k2, u) :: ys => by
    simp only [hforestBeq, Bool.and_eq_true, decide_eq_true_eq, List.cons.injEq,
      Prod.mk.injEq]
    rw [htreeBeq_iff t u, hforestBeq_iff xs ys]
end

instance : DecidableEq HTree := fun a b =>
  decidable_of_iff (htreeBeq a b = true) (htreeBeq_iff a b)

mutual
/-- `count_companies` (lines 116-120): one for the node plus the counts of all
children. -/
def count_companies : HTree → Nat
  | .mk f => 1 + countHForest f
/-- Sum of `count_companies` over the entries of a dict. -/
def countHForest : HForest → Nat
  | [] => 0
  | (_, t) :: rest => count_companies t + countHForest rest
end

mutual
/-- Number of occurrences of the key `k` anywhere in a tree. -/
def countKeyT (k : String) : HTree → Nat
  | .mk f => countKeyF k f
/-- Number of occurrences of the key `k` anywhere in a forest. -/
def countKeyF (k : String) : HForest → Nat
  | [] => 0
  | (k2, t) :: rest => (if k2 = k then 1 else 0) + countKeyT k t + countKeyF k rest
end

/-- The top-level keys of a forest. -/
def keysF (f : HForest) : List String :=
  f.map Prod.fst

mutual
/-- All `(name, node)` entries anywhere in a tree. -/
def nodesOfT : HTree → List (String × HTree)
  | .mk f => nodesOfF f
/-- All `(name, node)` entries anywhere in a forest. -/
def nodesOfF : HForest → List (String × HTree)
  | [] => []
  | (k, t) :: rest => (k, t) :: (nodesOfT t ++ nodesOfF rest)
end

/-- One worker invocation of `search_single_company` (lines 73-84) waiting to
run: `path` is the chain of raw parent names from the top down to (excluding)
this company, `name` the raw company name, `depth` the `current_depth` of the
`search_level` call that submitted it. -/
structure WTask where
  path : List String
  name : String
  depth : Nat
deriving DecidableEq

/-- Global state of one traversal: the normalized `searched_companies` set in
insertion order, the pending worker tasks, the result dicts built so far
(`tree` is a keyless wrapper whose forest is `search_level([root], 1)`'s
result), the raw names passed so far to `get_subsidiaries_single_search`
(`lookups`), and all check-and-mark outcomes (`marks`). -/
structure St where
  visited : List String
  pending : List WTask
  tree : HTree
  lookups : List String
  marks : List (String × Bool)
deriving DecidableEq

mutual
/-- Append entry `c` to the dict reached by following `path` from a node. -/
def insertAtT : HTree → List String → String × HTree → HTree
  | .mk f, path, c => .mk (insertAtF f path c)
/-- Append entry `c` to the dict reached by following `path` in a forest. -/
def insertAtF : HForest → List String → String × HTree → HForest
  | f, [], c => f ++ [c]
  | [], _ :: _, _ => []
  | (k, t) :: rest, p :: ps, c =>
    if k = p then (k, insertAtT t ps c) :: rest
    else (k, t) :: insertAtF rest (p :: ps) c
end

/-- The body of one worker, run atomically at its serialization point
(`search_single_company`, lines 73-84, together with the aggregation its
parent `search_level` performs on its result, lines 96-111):

* check-and-mark under `searched_lock` — an already-visited name contributes
  nothing (lines 74-78, 98-100);
* otherwise the name is looked up (line 83) and a node for it is added to its
  parent dict (line 102); if subsidiaries were found they are either turned
  into child tasks of a deeper `search_level` (lines 104-106) or, when
  `current_depth` has reached `max_depth`, recorded directly as unexpanded
  leaves with no marking and no lookup (lines 107-109). -/
def runWTask (L : String → List String) (D : Nat) (s : St) (t : WTask)
    (rest : List WTask) : St :=
  if pyLowerStrip t.name ∈ s.visited then
    { s with pending := rest, marks := s.marks ++ [(t.name, false)] }
  else if L t.name ≠ [] ∧ t.depth < D then
    { visited := s.visited ++ [pyLowerStrip t.name]
      pending := rest ++ (L t.name).map (fun n => ⟨t.path ++ [t.name], n, t.depth + 1⟩)
      tree := insertAtT s.tree t.path (t.name, .mk [])
      lookups := s.lookups ++ [t.name]
      marks := s.marks ++ [(t.name, true)] }
  else if L t.name ≠ [] then
    { visited := s.visited ++ [pyLowerStrip t.name]
      pending := rest
      tree := insertAtT s.tree t.path
        (t.name, .mk ((dedupeKeep (L t.name) []).map (fun n => (n, .mk []))))
      lookups := s.lookups ++ [t.name]
      marks := s.marks ++ [(t.name, true)] }
  else
    { visited := s.visited ++ [pyLowerStrip t.name]
      pending := rest
      tree := insertAtT s.tree t.path (t.name, .mk [])
      lookups := s.lookups ++ [t.name]
      marks := s.marks ++ [(t.name, true)] }

/-- One scheduling decision: run the body of the `i`-th pending task; an
out-of-range `i` changes nothing. -/
def step (L : String → List String) (D : Nat) (s : St) (i : Nat) : St :=
  match s.pending[i]? with
  | none => s
  | some t => runWTask L D s t (s.pending.eraseIdx i)

/-- Run a whole schedule. -/
def run (L : String → List String) (D : Nat) (s : St) : List Nat → St
  | [] => s
  | i :: rest => run L D (step L D s i) rest

/-- Traversal start: fresh empty visited set (line 64) and the single root
task of `search_level([company_name], 1)` (line 114). -/
def initSt (root : String) : St :=
  ⟨[], [⟨[], root, 1⟩], .mk [], [], []⟩

/-- The returned object (lines 67-71, 114, 122-125). -/
structure Hierarchy where
  company : String
  subsidiaries : HForest
  total_companies_found : Nat
deriving DecidableEq

/-- Lines 114 and 122-125: install the level-1 result and, when it is
non-empty, count the wrapper dict and subtract the wrapper itself. -/
def assemble (root : String) (w : HTree) : Hierarchy :=
  { company := root
    subsidiaries := w.subs
    total_companies_found :=
      if w.subs ≠ [] then count_companies w - 1 else 0 }

/-- Outcome of a call to `get_subsidiaries_hierarchy`: either a returned
hierarchy or an uncaught `ValueError` from `ThreadPoolExecutor(max_workers=n)`
with `n <= 0` (line 91; the constructor of
`concurrent.futures.ThreadPoolExecutor` raises for non-positive worker
counts). -/
inductive CallOutcome where
  | ok : Hierarchy → CallOutcome
  | valueError : CallOutcome
deriving DecidableEq

/-- `get_subsidiaries_hierarchy` (lines 57-126) for a given schedule, returning
the call outcome together with the final visited set and the names passed to
the lookup provider.  `search_level([root], 1)` returns `{}` before creating
any pool when `1 > max_depth` (line 87), so a non-positive `max_depth` yields
an empty hierarchy with no work done; otherwise a non-positive `max_workers`
makes the first `ThreadPoolExecutor` constructor raise (line 91) before any
task is submitted. -/
def get_subsidiaries_hierarchy (L : String → List String) (root : String)
    (max_depth max_workers : Int) (sched : List Nat) :
    CallOutcome × List String × List String :=
  if max_depth < 1 then (.ok (assemble root (.mk [])), [], [])
  else if max_workers ≤ 0 then (.valueError, [], [])
  else
    let fs := run L max_depth.toNat (initSt root) sched
    (.ok (assemble root fs.tree), fs.visited, fs.lookups)

/-- The node recorded for a company whose lookup returned `subs` at
`current_depth = max_depth`: its subsidiaries dict maps each discovered name
(dict-collapsed, first occurrence kept) to an unexpanded leaf (lines 107-109). -/
def leavesNode (subs : List String) : HTree :=
  .mk ((dedupeKeep subs []).map (fun n => (n, .mk [])))

/-- Normalized names of the check-and-mark events that returned true, in
order. -/
def trueMarkNorms (marks : List (String × Bool)) : List String :=
  (marks.filter (fun m => m.2)).map (fun m => pyLowerStrip m.1)

/-- Number of check-and-mark events with normalized name `n` that returned
true. -/
def winsFor (n : String) (marks : List (String × Bool)) : Nat :=
  (marks.filter (fun m => m.2 && (pyLowerStrip m.1 == n))).length

/-- Invariants tying the shared visited set to the lookup log and the
check-and-mark events: normalized lookups are exactly the visited set in
insertion order, the visited set never holds duplicates, the winning marks are
exactly the visited insertions, and every name that was ever check-and-marked
is in the visited set. -/
def BasicInv (s : St) : Prop :=
  s.lookups.map pyLowerStrip = s.visited ∧ s.visited.Nodup ∧
  trueMarkNorms s.marks = s.visited ∧
  (∀ n, (∃ m ∈ s.marks, pyLowerStrip m.1 = n) → n ∈ s.visited)

/-- After the root's win, the wrapper dict has the single key `root` and every
pending task points strictly below the top level. -/
def TopInv (root : String) (s : St) : Prop :=
  s = initSt root ∨
  (keysF s.tree.subs = [root] ∧ ∀ t ∈ s.pending, t.path ≠ [])

mutual
/-- An entry is coherent when all keys of its children dict come from its own
lookup result, recursively. -/
def entryOK (L : String → List String) : String × HTree → Bool
  | (k, .mk f) => (f.all (fun c => decide (c.1 ∈ L k))) && forestOKB L f
/-- All entries of a forest are coherent. -/
def forestOKB (L : String → List String) : HForest → Bool
  | [] => true
  | c :: rest => entryOK L c && forestOKB L rest
end

/-- Coherence invariant of the traversal: the tree built so far is coherent,
and every pending task was spawned from its parent's lookup result. -/
def LookInv (L : String → List String) (s : St) : Prop :=
  forestOKB L s.tree.subs = true ∧
  ∀ t ∈ s.pending, ∀ par, t.path.getLast? = some par → t.name ∈ L par

mutual
/-- `treeWithinB n t`: every chain of nested children below node `t` has length
at most `n`. -/
def treeWithinB : Nat → HTree → Bool
  | n, .mk f => forestWithinB n f
/-- `forestWithinB n f`: the entries of `f` fit in `n` remaining levels. -/
def forestWithinB : Nat → HForest → Bool
  | _, [] => true
  | 0, _ :: _ => false
  | n + 1, (_, t) :: rest => treeWithinB n t && forestWithinB (n + 1) rest
end

/-- Depth invariant: every pending task sits at a level between 1 and
`max_depth` with a path one shorter than its level, and the tree so far fits
within `max_depth + 1` levels below the wrapper. -/
def DepthInv (D : Nat) (s : St) : Prop :=
  (∀ t ∈ s.pending, 1 ≤ t.depth ∧ t.depth ≤ D ∧ t.path.length + 1 = t.depth) ∧
  forestWithinB (D + 1) s.tree.subs = true

/-- Weight of one name with `r` remaining expandable levels: itself plus the
weights of everything its lookup can spawn. -/
def taskBound (L : String → List String) : Nat → String → Nat
  | 0, _ => 1
  | r + 1, n => 1 + ((L n).map (taskBound L r)).sum

/-- Weight of a pending task. -/
def wtaskW (L : String → List String) (D : Nat) (t : WTask) : Nat :=
  taskBound L (D - t.depth) t.name

/-- Total weight of the queue: strictly decreases at every productive step. -/
def potential (L : String → List String) (D : Nat) (s : St) : Nat :=
  (s.pending.map (wtaskW L D)).sum

/-- All successors of a state (one per in-range scheduling choice). -/
def succsAll (L : String → List String) (D : Nat) (s : St) : List St :=
  (List.range s.pending.length).map (step L D s)

/-- All states reachable in at most `n` steps, accumulated with duplicates. -/
def reachN (L : String → List String) (D : Nat) : Nat → List St → List St
  | 0, acc => acc
  | n + 1, acc => reachN L D n (acc ++ acc.flatMap (succsAll L D))

/-- Provider for which the browser search raises for every company. -/
def pNone : String → Option (List String) := fun _ => none

/-- Its effective lookup: every company yields zero subsidiaries. -/
def LNone : String → List String := get_subsidiaries_single_search pNone

/-- Provider of the spec's concrete test scenario (spec section 8):
`R → [A, B]`, `A → [B, C]`, `B → []`, `C → []`. -/
def p4 : String → Option (List String) := fun n =>
  if n = "R" then some ["A", "B"]
  else if n = "A" then some ["B", "C"]
  else some []

/-- Effective lookup of the section-8 scenario. -/
def L4 : String → List String := get_subsidiaries_single_search p4

/-- Every state reachable in the section-8 scenario with `max_depth = 2`. -/
def S4 : List St := reachN L4 2 4 [initSt "R"]

/-- Provider with two raw case variants of one company: `r → [Ac, x]`,
`Ac → []`, `x → [ac]`. -/
def p8 : String → Option (List String) := fun n =>
  if n = "r" then some ["Ac", "x"]
  else if n = "x" then some ["ac"]
  else some []

/-- Effective lookup of the case-variant scenario. -/
def L8 : String → List String := get_subsidiaries_single_search p8

/-- Every state reachable in the case-variant scenario with `max_depth = 2`. -/
def S8 : List St := reachN L8 2 4 [initSt "r"]

/-- Provider with one failing company (`x`) and one healthy sibling (`y`):
`r → [x, y]`, `x` raises, `y → [z]`, `z → []`. -/
def p6 : String → Option (List String) := fun n =>
  if n = "r" then some ["x", "y"]
  else if n = "x" then none
  else if n = "y" then some ["z"]
  else some []

/-- Number of distinct names in a forest other than a given root name: the
count the spec's words prescribe ("distinct nodes ... root excluded"). -/
def distinctNonRootNodes (root : String) (f : HForest) : Nat :=
  ((dedupeKeep ((nodesOfF f).map Prod.fst) []).filter (fun k => k ≠ root)).length

/-- Complete case analysis of one scheduling step: a stutter (out-of-range
index), a skip of an already-visited name (no lookup, no node), or a win that
marks the name, performs the lookup and inserts exactly one node — spawning
child tasks below `max_depth`, recording unexpanded leaves at `max_depth`,
or nothing when the lookup came back empty. -/
theorem step_shape (L : String → List String) (D : Nat) (s : St) (i : Nat) :
    step L D s i = s ∨
    (∃ t, s.pending[i]? = some t ∧ pyLowerStrip t.name ∈ s.visited ∧
      step L D s i =
        { s with pending := s.pending.eraseIdx i,
                 marks := s.marks ++ [(t.name, false)] }) ∨
    (∃ t node newTasks, s.pending[i]? = some t ∧ pyLowerStrip t.name ∉ s.visited ∧
      ((L t.name ≠ [] ∧ t.depth < D ∧ node = HTree.mk [] ∧
         newTasks = (L t.name).map (fun n => WTask.mk (t.path ++ [t.name]) n (t.depth + 1))) ∨
       (L t.name ≠ [] ∧ ¬ t.depth < D ∧ node = leavesNode (L t.name) ∧ newTasks = []) ∨
       (L t.name = [] ∧ node = HTree.mk [] ∧ newTasks = [])) ∧
      step L D s i =
        { visited := s.visited ++ [pyLowerStrip t.name]
          pending := s.pending.eraseIdx i ++ newTasks
          tree := insertAtT s.tree t.path (t.name, node)
          lookups := s.lookups ++ [t.name]
          marks := s.marks ++ [(t.name, true)] }) := by
  unfold step
  cases hp : s.pending[i]? with
  | none => exact Or.inl rfl
  | some t =>
    dsimp only
    unfold runWTask
    split_ifs with h1 h2 h3
    · exact Or.inr (Or.inl ⟨t, rfl, h1, rfl⟩)
    · refine Or.inr (Or.inr ⟨t, HTree.mk [], _, rfl, h1, Or.inl ⟨h2.1, h2.2, rfl, rfl⟩, ?_⟩)
      simp
    · refine Or.inr (Or.inr ⟨t, leavesNode (L t.name), [], rfl, h1, ?_, ?_⟩)
      · have hd : ¬ t.depth < D := fun hlt => h2 ⟨h3, hlt⟩
        exact Or.inr (Or.inl ⟨h3, hd, rfl, rfl⟩)
      · simp [leavesNode]
    · have hL : L t.name = [] := by
        by_cases hL : L t.name = []
        · exact hL
        · exact absurd hL h3
      refine Or.inr (Or.inr ⟨t, HTree.mk [], [], rfl, h1, Or.inr (Or.inr ⟨hL, rfl, rfl⟩), ?_⟩)
      simp

/-- A step with an index at or past the end of the queue changes nothing. -/
theorem step_oob (L : String → List String) (D : Nat) (s : St) (i : Nat)
    (h : s.pending.length ≤ i) : step L D s i = s := by
  unfold step
  rw [List.getElem?_eq_none h]

/-- Running an appended schedule is running the pieces in order. -/
theorem run_append (L : String → List String) (D : Nat) :
    ∀ (a b : List Nat) (s : St), run L D s (a ++ b) = run L D (run L D s a) b := by
  intro a
  induction a with
  | nil => intro b s; rfl
  | cons i rest ih => intro b s; simpa [run] using ih b (step L D s i)

/-- Any property preserved by every step holds after every schedule. -/
theorem run_inv (L : String → List String) (D : Nat) (P : St → Prop)
    (hstep : ∀ s i, P s → P (step L D s i)) :
    ∀ (sched : List Nat) (s : St), P s → P (run L D s sched) := by
  intro sched
  induction sched with
  | nil => intro s h; exact h
  | cons i rest ih => intro s h; exact ih (step L D s i) (hstep s i h)

/-- A terminal state (empty queue) only stutters. -/
theorem run_of_terminal (L : String → List String) (D : Nat) (s : St)
    (h : s.pending = []) : ∀ sched, run L D s sched = s := by
  intro sched
  induction sched with
  | nil => rfl
  | cons i rest ih =>
    have : step L D s i = s := step_oob L D s i (by simp [h])
    simpa [run, this] using ih

theorem step_basicInv (L : String → List String) (D : Nat) (s : St) (i : Nat)
    (h : BasicInv s) : BasicInv (step L D s i) := by
  obtain ⟨h1, h2, h3, h4⟩ := h
  rcases step_shape L D s i with hs | ⟨t, hp, hv, hs⟩ | ⟨t, node, newT, hp, hv, hbr, hs⟩
  · rw [hs]; exact ⟨h1, h2, h3, h4⟩
  · rw [hs]
    refine ⟨h1, h2, by simpa [trueMarkNorms] using h3, ?_⟩
    intro n hn
    obtain ⟨m, hm, hmn⟩ := hn
    rcases List.mem_append.mp hm with hm | hm
    · exact h4 n ⟨m, hm, hmn⟩
    · simp only [List.mem_singleton] at hm
      subst hm
      simpa [← hmn] using hv
  · rw [hs]
    refine ⟨by simp [h1], by simp [List.nodup_append, h2, hv], ?_, ?_⟩
    · simp only [trueMarkNorms] at h3 ⊢
      simp [List.filter_append, h3]
    · intro n hn
      obtain ⟨m, hm, hmn⟩ := hn
      rcases List.mem_append.mp hm with hm | hm
      · exact List.mem_append.mpr (Or.inl (h4 n ⟨m, hm, hmn⟩))
      · simp only [List.mem_singleton] at hm
        subst hm
        simp [← hmn]

theorem run_basicInv (L : String → List String) (D : Nat) (root : String)
    (sched : List Nat) : BasicInv (run L D (initSt root) sched) := by
  refine run_inv L D BasicInv (fun s i h => step_basicInv L D s i h) sched (initSt root) ?_
  refine ⟨rfl, List.nodup_nil, rfl, ?_⟩
  intro n hn
  obtain ⟨m, hm, _⟩ := hn
  simp [initSt] at hm

/-- The visited set only ever grows. -/
theorem step_visited_extend (L : String → List String) (D : Nat) (s : St) (i : Nat) :
    ∃ l, (step L D s i).visited = s.visited ++ l := by
  rcases step_shape L D s i with hs | ⟨t, hp, hv, hs⟩ | ⟨t, node, newT, hp, hv, hbr, hs⟩
  · exact ⟨[], by simp [hs]⟩
  · exact ⟨[], by simp [hs]⟩
  · exact ⟨[pyLowerStrip t.name], by simp [hs]⟩

theorem run_visited_extend (L : String → List String) (D : Nat) :
    ∀ (sched : List Nat) (s : St), ∃ l, (run L D s sched).visited = s.visited ++ l := by
  intro sched
  induction sched with
  | nil => intro s; exact ⟨[], by simp [run]⟩
  | cons i rest ih =>
    intro s
    obtain ⟨l1, hl1⟩ := step_visited_extend L D s i
    obtain ⟨l2, hl2⟩ := ih (step L D s i)
    exact ⟨l1 ++ l2, by simp [run, hl2, hl1]⟩

theorem winsFor_eq_count (n : String) :
    ∀ marks : List (String × Bool), winsFor n marks = List.count n (trueMarkNorms marks) := by
  intro marks
  induction marks with
  | nil => rfl
  | cons m rest ih =>
    by_cases hb : m.2
    · by_cases he : pyLowerStrip m.1 = n
      · simp [winsFor, trueMarkNorms, hb, he, List.count_cons] at ih ⊢
        omega
      · simp [winsFor, trueMarkNorms, hb, he, List.count_cons] at ih ⊢
        omega
    · simp [winsFor, trueMarkNorms, hb] at ih ⊢
      exact ih

/-- `insertAtT` acts on the wrapped forest. -/
theorem insertAtT_subs (tr : HTree) (path : List String) (c : String × HTree) :
    (insertAtT tr path c).subs = insertAtF tr.subs path c := by
  cases tr
  rfl

/-- Inserting along a non-empty path never changes the top-level keys. -/
theorem keysF_insertAtF_cons (p : String) (ps : List String) (c : String × HTree) :
    ∀ f : HForest, keysF (insertAtF f (p :: ps) c) = keysF f := by
  intro f
  induction f with
  | nil => rfl
  | cons e rest ih =>
    obtain ⟨k, t⟩ := e
    by_cases hk : k = p
    · simp [insertAtF, hk, keysF]
    · simp only [insertAtF, if_neg hk]
      simp [keysF] at ih ⊢
      exact ih

/-- A singleton key list pins down the forest shape. -/
theorem keysF_eq_singleton (f : HForest) (r : String) (h : keysF f = [r]) :
    ∃ t0, f = [(r, t0)] := by
  cases f with
  | nil => simp [keysF] at h
  | cons e rest =>
    cases rest with
    | nil =>
      obtain ⟨k, t⟩ := e
      simp [keysF] at h
      exact ⟨t, by simp [h]⟩
    | cons e2 r2 => simp [keysF] at h

theorem step_topInv (L : String → List String) (D : Nat) (root : String) (s : St)
    (i : Nat) (h : TopInv root s) : TopInv root (step L D s i) := by
  rcases step_shape L D s i with hs | ⟨t, hp, hv, hs⟩ | ⟨t, node, newT, hp, hv, hbr, hs⟩
  · rw [hs]; exact h
  · rcases h with h | ⟨hk, hpath⟩
    · subst h
      have ht : t = ⟨[], root, 1⟩ := by
        cases i with
        | zero => simpa [initSt, eq_comm] using hp
        | succ n => simp [initSt] at hp
      rw [ht] at hv
      simp [initSt] at hv
    · refine Or.inr ⟨by rw [hs]; exact hk, ?_⟩
      rw [hs]
      intro u hu
      exact hpath u ((List.eraseIdx_sublist s.pending i).subset hu)
  · rcases h with h | ⟨hk, hpath⟩
    · subst h
      have hti : i = 0 ∧ t = ⟨[], root, 1⟩ := by
        cases i with
        | zero => simpa [initSt, eq_comm] using hp
        | succ n => simp [initSt] at hp
      obtain ⟨hi, ht⟩ := hti
      subst hi
      subst ht
      refine Or.inr ⟨?_, ?_⟩
      · rw [hs]
        simp [initSt, insertAtT, insertAtF, keysF, HTree.subs]
      · rw [hs]
        intro u hu
        simp only [List.mem_append] at hu
        rcases hu with hu | hu
        · simp [initSt] at hu
        · rcases hbr with ⟨_, _, _, hT⟩ | ⟨_, _, _, hT⟩ | ⟨_, _, hT⟩ <;> subst hT <;>
            simp at hu
          obtain ⟨n, _, hn⟩ := hu
          rw [← hn]
          simp
    · refine Or.inr ⟨?_, ?_⟩
      · rw [hs]
        have hne : t.path ≠ [] := hpath t (List.getElem?_mem hp)
        obtain ⟨p, ps, hpp⟩ := List.exists_cons_of_ne_nil hne
        rw [insertAtT_subs, hpp, keysF_insertAtF_cons, hk]
      · rw [hs]
        intro u hu
        simp only [List.mem_append] at hu
        rcases hu with hu | hu
        · exact hpath u ((List.eraseIdx_sublist s.pending i).subset hu)
        · rcases hbr with ⟨_, _, _, hT⟩ | ⟨_, _, _, hT⟩ | ⟨_, _, hT⟩ <;> subst hT <;>
            simp at hu
          obtain ⟨n, _, hn⟩ := hu
          rw [← hn]
          simp

theorem run_topInv (L : String → List String) (D : Nat) (root : String)
    (sched : List Nat) : TopInv root (run L D (initSt root) sched) :=
  run_inv L D (TopInv root) (fun s i h => step_topInv L D root s i h) sched
    (initSt root) (Or.inl rfl)

/-- In a completed traversal the wrapper dict's only key is the root name. -/
theorem run_terminal_topKeys (L : String → List String) (D : Nat) (root : String)
    (sched : List Nat) (h : (run L D (initSt root) sched).pending = []) :
    keysF (run L D (initSt root) sched).tree.subs = [root] := by
  rcases run_topInv L D root sched with hI | ⟨hk, _⟩
  · rw [hI] at h
    simp [initSt] at h
  · exact hk

theorem forestOKB_append (L : String → List String) :
    ∀ a b : HForest, forestOKB L (a ++ b) = (forestOKB L a && forestOKB L b) := by
  intro a b
  induction a with
  | nil => simp [forestOKB]
  | cons c rest ih => simp [forestOKB, ih, Bool.and_assoc]

/-- Key-only predicates over a dict are unchanged by an insertion along a
non-empty path (which never adds or removes top-level keys). -/
theorem insertAtF_all_fst (pred : String × HTree → Bool)
    (hpred : ∀ k t u, pred (k, t) = pred (k, u))
    (p : String) (ps : List String) (c : String × HTree) :
    ∀ g : HForest, (insertAtF g (p :: ps) c).all pred = g.all pred := by
  intro g
  induction g with
  | nil => simp [insertAtF]
  | cons e rest ih =>
    obtain ⟨k, t⟩ := e
    by_cases hk : k = p
    · rw [show insertAtF ((k, t) :: rest) (p :: ps) c =
          (k, insertAtT t ps c) :: rest from by simp [insertAtF, hk]]
      simp only [List.all_cons]
      rw [hpred k (insertAtT t ps c) t]
    · rw [show insertAtF ((k, t) :: rest) (p :: ps) c =
          (k, t) :: insertAtF rest (p :: ps) c from by simp [insertAtF, hk]]
      simp only [List.all_cons]
      rw [ih]

theorem dedupeKeep_subset (x : String) :
    ∀ (l seen : List String), x ∈ dedupeKeep l seen → x ∈ l := by
  intro l
  induction l with
  | nil => intro seen h; simp [dedupeKeep] at h
  | cons y ys ih =>
    intro seen h
    by_cases hy : y ∈ seen
    · simp only [dedupeKeep, if_pos hy] at h
      exact List.mem_cons_of_mem y (ih seen h)
    · simp only [dedupeKeep, if_neg hy] at h
      rcases List.mem_cons.mp h with h | h
      · exact h ▸ List.mem_cons_self y ys
      · exact List.mem_cons_of_mem y (ih (y :: seen) h)

/-- The node recorded at `max_depth` is coherent with its own lookup. -/
theorem leavesNode_entryOK (L : String → List String) (k : String)
    (hsub : ∀ x ∈ dedupeKeep (L k) [], x ∈ L k) :
    entryOK L (k, leavesNode (L k)) = true := by
  unfold leavesNode
  rw [entryOK, Bool.and_eq_true]
  constructor
  · rw [List.all_eq_true]
    intro c hc
    obtain ⟨n, hn, hcn⟩ := List.mem_map.mp hc
    rw [← hcn]
    simpa using hsub n hn
  · generalize dedupeKeep (L k) [] = l
    induction l with
    | nil => simp [forestOKB]
    | cons n ns ih => simpa [forestOKB, entryOK] using ih

/-- Inserting a coherent entry whose key comes from the lookup of the dict's
owner (the last name on the path) preserves coherence. -/
theorem insertAtF_OK (L : String → List String) (c : String × HTree)
    (hc : entryOK L c = true) :
    ∀ (path : List String) (f : HForest),
      forestOKB L f = true →
      (∀ par, path.getLast? = some par → c.1 ∈ L par) →
      forestOKB L (insertAtF f path c) = true := by
  intro path
  induction path with
  | nil =>
    intro f hf _
    rw [show insertAtF f [] c = f ++ [c] from by simp [insertAtF]]
    rw [forestOKB_append]
    simp [hf, forestOKB, hc]
  | cons p ps ihp =>
    intro f
    induction f with
    | nil => intro _ _; simp [insertAtF, forestOKB]
    | cons e rest ihf =>
      obtain ⟨k, t⟩ := e
      intro hf hpar
      rw [forestOKB, Bool.and_eq_true] at hf
      obtain ⟨hke, hkr⟩ := hf
      by_cases hk : k = p
      · rw [show insertAtF ((k, t) :: rest) (p :: ps) c =
            (k, insertAtT t ps c) :: rest from by simp [insertAtF, hk]]
        rw [forestOKB, Bool.and_eq_true]
        refine ⟨?_, hkr⟩
        obtain ⟨g⟩ := t
        rw [entryOK, Bool.and_eq_true] at hke
        obtain ⟨hkeys, hrec⟩ := hke
        cases ps with
        | nil =>
          rw [show insertAtT (HTree.mk g) [] c = HTree.mk (g ++ [c]) from by
            simp [insertAtT, insertAtF]]
          rw [entryOK, Bool.and_eq_true]
          constructor
          · rw [List.all_append]
            rw [Bool.and_eq_true]
            refine ⟨hkeys, ?_⟩
            have hcL : c.1 ∈ L p := hpar p (by simp)
            simp [hk, hcL]
          · rw [forestOKB_append]
            simp [hrec, forestOKB, hc]
        | cons q qs =>
          rw [show insertAtT (HTree.mk g) (q :: qs) c =
              HTree.mk (insertAtF g (q :: qs) c) from by simp [insertAtT]]
          rw [entryOK, Bool.and_eq_true]
          constructor
          · rw [insertAtF_all_fst (fun e => decide (e.1 ∈ L k)) (fun _ _ _ => rfl) q qs c g]
            exact hkeys
          · refine ihp g hrec ?_
            intro par hpar2
            refine hpar par ?_
            rw [List.getLast?_cons_cons]
            exact hpar2
      · rw [show insertAtF ((k, t) :: rest) (p :: ps) c =
            (k, t) :: insertAtF rest (p :: ps) c from by simp [insertAtF, hk]]
        rw [forestOKB, Bool.and_eq_true]
        exact ⟨hke, ihf hkr hpar⟩

theorem step_lookInv (L : String → List String) (D : Nat) (s : St) (i : Nat)
    (h : LookInv L s) : LookInv L (step L D s i) := by
  obtain ⟨htree, htask⟩ := h
  rcases step_shape L D s i with hs | ⟨t, hp, hv, hs⟩ | ⟨t, node, newT, hp, hv, hbr, hs⟩
  · rw [hs]; exact ⟨htree, htask⟩
  · rw [hs]
    refine ⟨htree, ?_⟩
    intro u hu
    exact htask u ((List.eraseIdx_sublist s.pending i).subset hu)
  · have hmem : t ∈ s.pending := List.getElem?_mem hp
    have hnodeOK : entryOK L (t.name, node) = true := by
      rcases hbr with ⟨_, _, hn, _⟩ | ⟨_, _, hn, _⟩ | ⟨_, hn, _⟩
      · subst hn; simp [entryOK, forestOKB]
      · subst hn
        exact leavesNode_entryOK L t.name (fun x hx => dedupeKeep_subset x _ [] hx)
      · subst hn; simp [entryOK, forestOKB]
    rw [hs]
    constructor
    · rw [insertAtT_subs]
      refine insertAtF_OK L (t.name, node) hnodeOK t.path s.tree.subs htree ?_
      intro par hpar
      exact htask t hmem par hpar
    · intro u hu
      rcases List.mem_append.mp hu with hu | hu
      · exact htask u ((List.eraseIdx_sublist s.pending i).subset hu)
      · rcases hbr with ⟨_, _, _, hT⟩ | ⟨_, _, _, hT⟩ | ⟨_, _, hT⟩ <;> subst hT <;>
          simp at hu
        obtain ⟨n, hn, hun⟩ := hu
        intro par hpar
        rw [← hun] at hpar ⊢
        simp only [List.getLast?_concat] at hpar
        cases hpar
        simpa using hn

theorem run_lookInv (L : String → List String) (D : Nat) (root : String)
    (sched : List Nat) : LookInv L (run L D (initSt root) sched) := by
  refine run_inv L D (LookInv L) (fun s i h => step_lookInv L D s i h) sched
    (initSt root) ⟨by simp [initSt, HTree.subs, forestOKB], ?_⟩
  intro t ht
  simp only [initSt, List.mem_singleton] at ht
  subst ht
  intro par hpar
  simp at hpar

theorem forestWithinB_append (n : Nat) :
    ∀ a b : HForest, forestWithinB n (a ++ b) = (forestWithinB n a && forestWithinB n b) := by
  intro a b
  induction a with
  | nil => simp [forestWithinB]
  | cons c rest ih =>
    obtain ⟨k, t⟩ := c
    cases n with
    | zero => simp [forestWithinB]
    | succ m => simp [forestWithinB, ih, Bool.and_assoc]

/-- A dict of unexpanded leaves fits in one level. -/
theorem leaves_within (l : List String) :
    forestWithinB 1 (l.map (fun n => (n, HTree.mk []))) = true := by
  induction l with
  | nil => simp [forestWithinB]
  | cons x xs ih => simpa [forestWithinB, treeWithinB] using ih

/-- Inserting a node that fits in the remaining budget below its path keeps
the forest within its depth bound. -/
theorem insertAtF_within (c : String × HTree) :
    ∀ (path : List String) (n : Nat) (f : HForest),
      forestWithinB n f = true →
      path.length < n →
      treeWithinB (n - path.length - 1) c.2 = true →
      forestWithinB n (insertAtF f path c) = true := by
  intro path
  induction path with
  | nil =>
    intro n f hf hlen hc
    rw [show insertAtF f [] c = f ++ [c] from by simp [insertAtF]]
    rw [forestWithinB_append, Bool.and_eq_true]
    refine ⟨hf, ?_⟩
    obtain ⟨k, t⟩ := c
    cases n with
    | zero => omega
    | succ m =>
      rw [show forestWithinB (m + 1) [(k, t)] =
          (treeWithinB m t && forestWithinB (m + 1) []) from by simp [forestWithinB]]
      simpa [forestWithinB] using hc
  | cons p ps ihp =>
    intro n f
    induction f with
    | nil => intro _ _ _; simp [insertAtF, forestWithinB]
    | cons e rest ihf =>
      obtain ⟨k, t⟩ := e
      intro hf hlen hc
      cases n with
      | zero => simp [forestWithinB] at hf
      | succ m =>
        rw [forestWithinB, Bool.and_eq_true] at hf
        obtain ⟨hkt, hkr⟩ := hf
        by_cases hk : k = p
        · rw [show insertAtF ((k, t) :: rest) (p :: ps) c =
              (k, insertAtT t ps c) :: rest from by simp [insertAtF, hk]]
          rw [forestWithinB, Bool.and_eq_true]
          refine ⟨?_, hkr⟩
          obtain ⟨g⟩ := t
          rw [show insertAtT (HTree.mk g) ps c = HTree.mk (insertAtF g ps c) from by
            simp [insertAtT]]
          rw [treeWithinB]
          rw [treeWithinB] at hkt
          refine ihp m g hkt ?_ ?_
          · simp only [List.length_cons] at hlen
            omega
          · have harith : m - ps.length - 1 = (m + 1) - (p :: ps).length - 1 := by
              simp only [List.length_cons]
              omega
            rw [harith]
            exact hc
        · rw [show insertAtF ((k, t) :: rest) (p :: ps) c =
              (k, t) :: insertAtF rest (p :: ps) c from by simp [insertAtF, hk]]
          rw [forestWithinB, Bool.and_eq_true]
          exact ⟨hkt, ihf hkr hlen hc⟩

theorem step_depthInv (L : String → List String) (D : Nat) (s : St) (i : Nat)
    (h : DepthInv D s) : DepthInv D (step L D s i) := by
  obtain ⟨htask, htree⟩ := h
  rcases step_shape L D s i with hs | ⟨t, hp, hv, hs⟩ | ⟨t, node, newT, hp, hv, hbr, hs⟩
  · rw [hs]; exact ⟨htask, htree⟩
  · rw [hs]
    refine ⟨?_, htree⟩
    intro u hu
    exact htask u ((List.eraseIdx_sublist s.pending i).subset hu)
  · have hmem : t ∈ s.pending := List.getElem?_mem hp
    obtain ⟨hd1, hdD, hdlen⟩ := htask t hmem
    rw [hs]
    constructor
    · intro u hu
      rcases List.mem_append.mp hu with hu | hu
      · exact htask u ((List.eraseIdx_sublist s.pending i).subset hu)
      · rcases hbr with ⟨_, hlt, _, hT⟩ | ⟨_, _, _, hT⟩ | ⟨_, _, hT⟩ <;> subst hT <;>
          simp at hu
        obtain ⟨n, _, hun⟩ := hu
        rw [← hun]
        refine ⟨by dsimp only; omega, by dsimp only; omega, ?_⟩
        dsimp only
        simp only [List.length_append, List.length_singleton]
        omega
    · rw [insertAtT_subs]
      refine insertAtF_within (t.name, node) t.path (D + 1) s.tree.subs htree
        (by omega) ?_
      have hbudget : D + 1 - t.path.length - 1 = D + 1 - t.depth := by omega
      rw [hbudget]
      rcases hbr with ⟨_, hlt, hn, _⟩ | ⟨_, hge, hn, _⟩ | ⟨_, hn, _⟩
      · subst hn
        rw [treeWithinB]
        simp [forestWithinB]
      · subst hn
        have hD : t.depth = D := by omega
        have hone : D + 1 - t.depth = 1 := by omega
        rw [hone]
        unfold leavesNode
        rw [treeWithinB]
        exact leaves_within (dedupeKeep (L t.name) [])
      · subst hn
        rw [treeWithinB]
        simp [forestWithinB]

theorem run_depthInv (L : String → List String) (D : Nat) (root : String)
    (hD : 1 ≤ D) (sched : List Nat) : DepthInv D (run L D (initSt root) sched) := by
  refine run_inv L D (DepthInv D) (fun s i h => step_depthInv L D s i h) sched
    (initSt root) ⟨?_, by simp [initSt, HTree.subs, forestWithinB]⟩
  intro t ht
  simp only [initSt, List.mem_singleton] at ht
  subst ht
  exact ⟨le_refl 1, hD, rfl⟩

theorem taskBound_pos (L : String → List String) (r : Nat) (n : String) :
    1 ≤ taskBound L r n := by
  cases r <;> simp [taskBound]

theorem potential_step_head (L : String → List String) (D : Nat) (s : St)
    (t : WTask) (rest : List WTask) (hpend : s.pending = t :: rest) :
    potential L D (step L D s 0) < potential L D s := by
  have h0 : s.pending[0]? = some t := by simp [hpend]
  have he : s.pending.eraseIdx 0 = rest := by rw [hpend]; rfl
  have hwpos : 1 ≤ wtaskW L D t := taskBound_pos L (D - t.depth) t.name
  have hpot : potential L D s = wtaskW L D t + potential L D { s with pending := rest } := by
    simp [potential, hpend]
  unfold step
  rw [h0]
  dsimp only
  rw [he]
  unfold runWTask
  split_ifs with h1 h2 h3
  · simp only [potential] at hpot ⊢
    omega
  · obtain ⟨hne, hlt⟩ := h2
    have hw : wtaskW L D t = 1 + ((L t.name).map (taskBound L (D - t.depth - 1))).sum := by
      unfold wtaskW
      have hsplit : D - t.depth = (D - t.depth - 1) + 1 := by omega
      conv_lhs => rw [hsplit]
      rw [taskBound]
    have hnew :
        ((L t.name).map (fun n => WTask.mk (t.path ++ [t.name]) n (t.depth + 1))).map
          (wtaskW L D) = (L t.name).map (taskBound L (D - t.depth - 1)) := by
      rw [List.map_map]
      refine List.map_congr_left ?_
      intro n _
      show taskBound L (D - (t.depth + 1)) n = taskBound L (D - t.depth - 1) n
      rw [Nat.sub_sub]
    simp only [potential, List.map_append, List.sum_append] at hpot ⊢
    rw [hnew]
    omega
  · simp only [potential] at hpot ⊢
    omega
  · simp only [potential] at hpot ⊢
    omega

/-- Enough head-first steps always drain the queue: with the provider and the
depth limit fixed, every traversal completes. -/
theorem run_head_schedule_terminates (L : String → List String) (D : Nat) :
    ∀ (n : Nat) (s : St), potential L D s ≤ n →
      (run L D s (List.replicate n 0)).pending = [] := by
  intro n
  induction n with
  | zero =>
    intro s h
    cases hpend : s.pending with
    | nil => simpa [run] using hpend
    | cons t rest =>
      exfalso
      have hwpos : 1 ≤ wtaskW L D t := taskBound_pos L (D - t.depth) t.name
      simp [potential, hpend] at h
      omega
  | succ m ih =>
    intro s h
    cases hpend : s.pending with
    | nil => rw [run_of_terminal L D s hpend]; exact hpend
    | cons t rest =>
      have hlt := potential_step_head L D s t rest hpend
      have hm : potential L D (step L D s 0) ≤ m := by omega
      show (run L D (step L D s 0) (List.replicate m 0)).pending = []
      exact ih (step L D s 0) hm

/-- If a finite state set is closed under every step, every schedule stays
inside it. -/
theorem run_mem_of_closed (L : String → List String) (D : Nat) (S : List St)
    (hS : ∀ s ∈ S, ∀ i, step L D s i ∈ S) :
    ∀ (sched : List Nat) (s : St), s ∈ S → run L D s sched ∈ S := by
  intro sched
  induction sched with
  | nil => intro s h; exact h
  | cons i rest ih => intro s h; exact ih (step L D s i) (hS s h i)

/-- The step-closure condition reduced to a finite boolean check. -/
theorem closed_of_check (L : String → List String) (D : Nat) (S : List St)
    (h : (S.all fun s => (List.range s.pending.length).all fun i =>
      decide (step L D s i ∈ S)) = true) :
    ∀ s ∈ S, ∀ i, step L D s i ∈ S := by
  intro s hs i
  by_cases hi : i < s.pending.length
  · have h1 := (List.all_eq_true.mp h) s hs
    have h2 := (List.all_eq_true.mp h1) i (List.mem_range.mpr hi)
    exact of_decide_eq_true h2
  · rw [step_oob L D s i (by omega)]
    exact hs

/-- Every node of the tree holds at least itself. -/
theorem count_companies_pos : ∀ t : HTree, 1 ≤ count_companies t
  | .mk f => by rw [count_companies]; omega

/-- Extract the per-node bound from the whole-forest depth bound. -/
theorem forestWithinB_mem (n : Nat) :
    ∀ f : HForest, forestWithinB (n + 1) f = true →
      ∀ c ∈ f, treeWithinB n c.2 = true := by
  intro f
  induction f with
  | nil => intro _ c hc; simp at hc
  | cons e rest ih =>
    obtain ⟨k, t⟩ := e
    intro hf c hc
    rw [forestWithinB, Bool.and_eq_true] at hf
    rcases List.mem_cons.mp hc with hc | hc
    · subst hc
      exact hf.1
    · exact ih hf.2 c hc

/-- Coherence propagates to every node anywhere in the forest: the keys of a
node's children dict all come from the node's own lookup result. -/
theorem forestOKB_nodes (L : String → List String) :
    ∀ f : HForest, forestOKB L f = true →
      ∀ c ∈ nodesOfF f, ∀ d ∈ c.2.subs, d.1 ∈ L c.1
  | [] => by
    intro _ c hc
    rw [nodesOfF] at hc
    simp at hc
  | (k, .mk g) :: rest => by
    intro hf c hc d hd
    rw [forestOKB, Bool.and_eq_true] at hf
    obtain ⟨he, hr⟩ := hf
    rw [entryOK, Bool.and_eq_true] at he
    obtain ⟨hkeys, hgOK⟩ := he
    rw [nodesOfF] at hc
    rcases List.mem_cons.mp hc with hc | hc
    · subst hc
      have := List.all_eq_true.mp hkeys d (by simpa [HTree.subs] using hd)
      simpa using this
    · rcases List.mem_append.mp hc with hc | hc
      · exact forestOKB_nodes L g hgOK c (by simpa [nodesOfT] using hc) d hd
      · exact forestOKB_nodes L rest hr c hc d hd

/-- Raw-variant count in the lookup log, as a count over normalized names. -/
theorem lookupsFor_eq_count (n : String) :
    ∀ l : List String, (l.filter (fun m => pyLowerStrip m == n)).length =
      List.count n (l.map pyLowerStrip) := by
  intro l
  induction l with
  | nil => rfl
  | cons x xs ih =>
    by_cases hx : pyLowerStrip x = n
    · simp [List.count_cons, hx, ih]
    · simp [List.count_cons, hx, ih]

/-- C1: in every traversal (any provider, any depth limit, any root, any
scheduling of the concurrent workers), no normalized company name is ever
passed to `get_subsidiaries_single_search` more than once: the normalized
lookup log is duplicate-free, and it coincides with the shared visited set —
every performed lookup corresponds to exactly one successful check-and-mark,
and a worker whose name was already marked performs no lookup. -/
theorem claim_C1_no_duplicate_lookup (p : String → Option (List String)) (D : Nat)
    (root : String) (sched : List Nat) :
    ((run (get_subsidiaries_single_search p) D (initSt root) sched).lookups.map
      pyLowerStrip).Nodup ∧
    (run (get_subsidiaries_single_search p) D (initSt root) sched).lookups.map
      pyLowerStrip =
      (run (get_subsidiaries_single_search p) D (initSt root) sched).visited := by
  obtain ⟨h1, h2, _, _⟩ := run_basicInv (get_subsidiaries_single_search p) D root sched
  exact ⟨h1 ▸ h2, h1⟩

/-- C2 counterexample: with a provider that fails on every lookup
(`RootCo` has zero discovered subsidiaries) and `max_depth = 3`, the completed
traversal returns `total_companies_found = 1`, while the number of distinct
non-root names in the returned subsidiaries mapping is `0` — the claim
predicts `0`, so it fails on the code: the mapping's single node is the root
itself and it is counted. -/
theorem claim_C2_counterexample :
    (run LNone 3 (initSt "RootCo") [0]).pending = [] ∧
    (assemble "RootCo" (run LNone 3 (initSt "RootCo") [0]).tree).total_companies_found
      = 1 ∧
    distinctNonRootNodes "RootCo"
      (assemble "RootCo" (run LNone 3 (initSt "RootCo") [0]).tree).subsidiaries = 0 ∧
    ¬ (assemble "RootCo" (run LNone 3 (initSt "RootCo") [0]).tree).total_companies_found
      = 0 := by
  refine ⟨by decide, by decide, by decide, by decide⟩

/-- C2 amended: `total_companies_found` equals the total number of node
occurrences in the returned subsidiaries mapping — a mapping that contains the
root itself as its single top-level node and counts a name once per occurrence
— rather than the number of distinct non-root nodes; with zero subsidiaries
the count is 1, not 0. -/
theorem claim_C2_amended (root : String) (w : HTree) :
    (assemble root w).total_companies_found = countHForest w.subs := by
  cases w with
  | mk f =>
    cases f with
    | nil =>
      show (if ([] : HForest) ≠ [] then count_companies (HTree.mk []) - 1 else 0) =
        countHForest []
      rw [countHForest]
      simp
    | cons c rest =>
      show (if (c :: rest : HForest) ≠ [] then count_companies (HTree.mk (c :: rest)) - 1
        else 0) = countHForest (c :: rest)
      rw [if_pos (by simp), count_companies]
      omega

/-- C9: the check-and-mark of `search_single_company` behaves as a single
critical section: across any traversal, for any normalized name, at most one
check-and-mark event returns true, and exactly one does as soon as any worker
with that name ran; and the shared visited set is monotonic — extending the
schedule only ever appends to it. -/
theorem claim_C9_trymark_critical_section (L : String → List String) (D : Nat)
    (root : String) (sched ext : List Nat) (n : String) :
    (∃ grow, (run L D (initSt root) (sched ++ ext)).visited =
      (run L D (initSt root) sched).visited ++ grow) ∧
    winsFor n (run L D (initSt root) sched).marks ≤ 1 ∧
    ((∃ m ∈ (run L D (initSt root) sched).marks, pyLowerStrip m.1 = n) →
      winsFor n (run L D (initSt root) sched).marks = 1) := by
  obtain ⟨_, hnodup, hmarks, hmem⟩ := run_basicInv L D root sched
  have hcount : winsFor n (run L D (initSt root) sched).marks =
      List.count n (run L D (initSt root) sched).visited := by
    rw [winsFor_eq_count, hmarks]
  refine ⟨?_, ?_, ?_⟩
  · rw [run_append]
    exact run_visited_extend L D ext (run L D (initSt root) sched)
  · rw [hcount]
    exact List.nodup_iff_count_le_one.mp hnodup n
  · intro hex
    have hin : n ∈ (run L D (initSt root) sched).visited := hmem n hex
    have h1 : 1 ≤ List.count n (run L D (initSt root) sched).visited :=
      List.count_pos_iff.mpr hin
    have h2 : List.count n (run L D (initSt root) sched).visited ≤ 1 :=
      List.nodup_iff_count_le_one.mp hnodup n
    omega

/-- C9 witness: in the case-variant scenario run to depth 3, the raw variants
`Ac` and `ac` race for the normalized name `ac`; both are check-and-marked and
exactly one wins. -/
theorem claim_C9_witness :
    (∃ grow, (run L8 3 (initSt "r") ([0, 0, 0, 0] ++ [0])).visited =
      (run L8 3 (initSt "r") [0, 0, 0, 0]).visited ++ grow) ∧
    winsFor "ac" (run L8 3 (initSt "r") [0, 0, 0, 0]).marks ≤ 1 ∧
    winsFor "ac" (run L8 3 (initSt "r") [0, 0, 0, 0]).marks = 1 := by
  obtain ⟨hg, hle, himp⟩ := claim_C9_trymark_critical_section L8 3 "r" [0, 0, 0, 0] [0] "ac"
  exact ⟨hg, hle, himp ⟨("Ac", true), by decide, by decide⟩⟩

theorem mem_nodesOfF_of_mem : ∀ (f : HForest) (c : String × HTree), c ∈ f → c ∈ nodesOfF f := by
  intro f
  induction f with
  | nil => intro c hc; simp at hc
  | cons e rest ih =>
    intro c hc
    rw [nodesOfF]
    rcases List.mem_cons.mp hc with hc | hc
    · exact hc ▸ List.mem_cons_self e _
    · exact List.mem_cons_of_mem e (List.mem_append.mpr (Or.inr (ih c hc)))

/-- The returned count is the node count of the subsidiaries mapping. -/
theorem assemble_total (root : String) (w : HTree) :
    (assemble root w).total_companies_found = countHForest w.subs := by
  cases w with
  | mk f =>
    cases f with
    | nil =>
      show (if ([] : HForest) ≠ [] then count_companies (HTree.mk []) - 1 else 0) =
        countHForest []
      rw [countHForest]
      simp
    | cons c rest =>
      show (if (c :: rest : HForest) ≠ [] then count_companies (HTree.mk (c :: rest)) - 1
        else 0) = countHForest (c :: rest)
      rw [if_pos (by simp), count_companies]
      omega

/-- A root whose lookup yields nothing gives a two-state traversal: nothing
has happened yet, or the root alone was marked, looked up and recorded. -/
theorem run_empty_root_lookup (L : String → List String) (D : Nat) (root : String)
    (hL : L root = []) (sched : List Nat) :
    run L D (initSt root) sched = initSt root ∨
    run L D (initSt root) sched =
      ⟨[pyLowerStrip root], [], HTree.mk [(root, HTree.mk [])], [root], [(root, true)]⟩ := by
  refine run_inv L D (fun s => s = initSt root ∨
    s = ⟨[pyLowerStrip root], [], HTree.mk [(root, HTree.mk [])], [root], [(root, true)]⟩)
    ?_ sched (initSt root) (Or.inl rfl)
  intro s i h
  rcases h with h | h
  · subst h
    cases i with
    | zero =>
      right
      unfold step
      rw [show (initSt root).pending[0]? = some ⟨[], root, 1⟩ from by simp [initSt]]
      dsimp only
      unfold runWTask
      rw [if_neg (by simp [initSt]), if_neg (by simp [hL]), if_neg (by simp [hL])]
      simp [initSt, insertAtT, insertAtF]
    | succ n =>
      left
      rw [step_oob L D _ (n + 1) (by simp [initSt])]
  · subst h
    right
    rw [step_oob L D _ i (by simp)]

/-- C3 counterexample: in the section-8 scenario the completed traversal's
`subsidiaries` mapping does NOT have the root's discovered direct subsidiaries
as keys: its single key is the root name `R` itself, and the discovered direct
subsidiary `A` is not a key, contradicting the claim. -/
theorem claim_C3_counterexample :
    (run L4 2 (initSt "R") [0, 0, 0]).pending = [] ∧
    "A" ∈ L4 "R" ∧
    keysF (assemble "R" (run L4 2 (initSt "R") [0, 0, 0]).tree).subsidiaries = ["R"] ∧
    "R" ∈ keysF (assemble "R" (run L4 2 (initSt "R") [0, 0, 0]).tree).subsidiaries ∧
    "A" ∉ keysF (assemble "R" (run L4 2 (initSt "R") [0, 0, 0]).tree).subsidiaries := by
  refine ⟨by decide, by decide, by decide, by decide, by decide⟩

/-- C3 amended: `get_subsidiaries_hierarchy`'s result has `company = root` as
passed in, but its `subsidiaries` mapping has exactly one key — the root name
itself — and it is that root node's own children dict whose keys are discovered
direct subsidiaries of the root (each key comes from the root's lookup
result). -/
theorem claim_C3_amended (p : String → Option (List String)) (D : Nat)
    (root : String) (sched : List Nat) (_hD : 1 ≤ D)
    (hterm : (run (get_subsidiaries_single_search p) D (initSt root) sched).pending
      = []) :
    (assemble root
      (run (get_subsidiaries_single_search p) D (initSt root) sched).tree).company
      = root ∧
    ∃ t0,
      (assemble root
        (run (get_subsidiaries_single_search p) D (initSt root) sched).tree).subsidiaries
        = [(root, t0)] ∧
      ∀ c ∈ t0.subs, c.1 ∈ get_subsidiaries_single_search p root := by
  have hkeys := run_terminal_topKeys (get_subsidiaries_single_search p) D root sched hterm
  obtain ⟨t0, ht0⟩ := keysF_eq_singleton _ root hkeys
  refine ⟨rfl, t0, ht0, ?_⟩
  intro c hc
  have hOK := (run_lookInv (get_subsidiaries_single_search p) D root sched).1
  refine forestOKB_nodes (get_subsidiaries_single_search p) _ hOK (root, t0) ?_ c hc
  exact mem_nodesOfF_of_mem _ (root, t0) (by rw [ht0]; simp)

/-- C3 witness: the amended statement at the section-8 scenario. -/
theorem claim_C3_witness :
    (assemble "R"
      (run (get_subsidiaries_single_search p4) 2 (initSt "R") [0, 0, 0]).tree).company
      = "R" ∧
    ∃ t0,
      (assemble "R"
        (run (get_subsidiaries_single_search p4) 2 (initSt "R") [0, 0, 0]).tree).subsidiaries
        = [("R", t0)] ∧
      ∀ c ∈ t0.subs, c.1 ∈ get_subsidiaries_single_search p4 "R" :=
  claim_C3_amended p4 2 "R" [0, 0, 0] (by decide) (by decide)

/-- C10: for every completed traversal with `max_depth ≥ 1`, the returned
`subsidiaries` mapping has exactly one top-level key — the root company name —
so the root is a node of its own subsidiaries tree; it is included in
`total_companies_found`, which is therefore at least 1; and a root whose
lookup finds nothing (or fails) yields exactly
`{company: root, subsidiaries: {root: {}}, total_companies_found: 1}`. -/
theorem claim_C10_root_in_own_tree (p : String → Option (List String)) (D : Nat)
    (root : String) (sched : List Nat) (_hD : 1 ≤ D)
    (hterm : (run (get_subsidiaries_single_search p) D (initSt root) sched).pending
      = []) :
    keysF (assemble root
      (run (get_subsidiaries_single_search p) D (initSt root) sched).tree).subsidiaries
      = [root] ∧
    1 ≤ (assemble root
      (run (get_subsidiaries_single_search p) D (initSt root) sched).tree).total_companies_found ∧
    (get_subsidiaries_single_search p root = [] →
      assemble root (run (get_subsidiaries_single_search p) D (initSt root) sched).tree
        = ⟨root, [(root, HTree.mk [])], 1⟩) := by
  have hkeys := run_terminal_topKeys (get_subsidiaries_single_search p) D root sched hterm
  obtain ⟨t0, ht0⟩ := keysF_eq_singleton _ root hkeys
  refine ⟨hkeys, ?_, ?_⟩
  · rw [assemble_total, ht0, countHForest, countHForest]
    have := count_companies_pos t0
    omega
  · intro hL
    rcases run_empty_root_lookup (get_subsidiaries_single_search p) D root hL sched
      with hfin | hfin
    · rw [hfin] at hterm
      simp [initSt] at hterm
    · rw [hfin]
      show assemble root (HTree.mk [(root, HTree.mk [])]) = ⟨root, [(root, HTree.mk [])], 1⟩
      have h1 : count_companies (HTree.mk [(root, HTree.mk [])]) = 2 := by
        rw [count_companies, countHForest, count_companies, countHForest]
      unfold assemble
      rw [show (HTree.mk [(root, HTree.mk [])]).subs = [(root, HTree.mk [])] from rfl]
      rw [if_pos (by simp), h1]

/-- C10 witness: the all-failing provider at depth 1 yields the singleton
hierarchy `{RootCo: {}}` with count 1. -/
theorem claim_C10_witness :
    keysF (assemble "RootCo"
      (run (get_subsidiaries_single_search pNone) 1 (initSt "RootCo") [0]).tree).subsidiaries
      = ["RootCo"] ∧
    1 ≤ (assemble "RootCo"
      (run (get_subsidiaries_single_search pNone) 1 (initSt "RootCo") [0]).tree).total_companies_found ∧
    assemble "RootCo"
      (run (get_subsidiaries_single_search pNone) 1 (initSt "RootCo") [0]).tree
      = ⟨"RootCo", [("RootCo", HTree.mk [])], 1⟩ := by
  obtain ⟨h1, h2, h3⟩ := claim_C10_root_in_own_tree pNone 1 "RootCo" [0]
    (by decide) (by decide)
  exact ⟨h1, h2, h3 (by decide)⟩

/-- C4 counterexample: in the section-8 scenario (`R → [A,B]`, `A → [B,C]`,
`max_depth = 2`) a completed traversal has `B` appearing TWICE in the tree
(once as R's searched child, once as an unexpanded leaf under A recorded at
`max_depth` without any visited check) and `total_companies_found = 5`, not
once and 3 as claimed. -/
theorem claim_C4_counterexample :
    (run L4 2 (initSt "R") [0, 0, 0]).pending = [] ∧
    countKeyF "B" (run L4 2 (initSt "R") [0, 0, 0]).tree.subs = 2 ∧
    (assemble "R" (run L4 2 (initSt "R") [0, 0, 0]).tree).total_companies_found = 5 ∧
    ¬ countKeyF "B" (run L4 2 (initSt "R") [0, 0, 0]).tree.subs = 1 ∧
    ¬ (assemble "R" (run L4 2 (initSt "R") [0, 0, 0]).tree).total_companies_found = 3 := by
  refine ⟨by decide, by decide, by decide, by decide, by decide⟩

/-- C4 amended: in the section-8 scenario with `max_depth = 2`, EVERY
scheduling of the workers that completes the traversal yields `B` exactly
twice in the tree (B's own searched node under R, plus the unexpanded leaf
recorded under A when A's lookup runs at `max_depth` and bypasses the visited
check) and `total_companies_found = 5` (R, A, B, C and the duplicate leaf B,
with the root node included in the count). -/
theorem claim_C4_amended (sched : List Nat)
    (hterm : (run L4 2 (initSt "R") sched).pending = []) :
    countKeyF "B" (run L4 2 (initSt "R") sched).tree.subs = 2 ∧
    (assemble "R" (run L4 2 (initSt "R") sched).tree).total_companies_found = 5 := by
  have hmem : run L4 2 (initSt "R") sched ∈ S4 :=
    run_mem_of_closed L4 2 S4 (closed_of_check L4 2 S4 (by decide)) sched (initSt "R")
      (by decide)
  have hall : (S4.all fun s => !s.pending.isEmpty ||
      (decide (countKeyF "B" s.tree.subs = 2) &&
       decide ((assemble "R" s.tree).total_companies_found = 5))) = true := by decide
  have h := List.all_eq_true.mp hall _ hmem
  simp only [hterm, List.isEmpty_nil, Bool.not_true, Bool.false_or, Bool.and_eq_true,
    decide_eq_true_eq] at h
  exact h

/-- C4 witness: the amended statement along the schedule that runs B's worker
before A's. -/
theorem claim_C4_amended_witness :
    (run L4 2 (initSt "R") [0, 1, 0]).pending = [] ∧
    (countKeyF "B" (run L4 2 (initSt "R") [0, 1, 0]).tree.subs = 2 ∧
     (assemble "R" (run L4 2 (initSt "R") [0, 1, 0]).tree).total_companies_found = 5) :=
  ⟨by decide, claim_C4_amended [0, 1, 0] (by decide)⟩

/-- C5 counterexample: in the section-8 scenario, `B` is discovered by A's
lookup performed at depth `D = 2 = max_depth` and recorded as a leaf under A —
yet `B` IS passed to the lookup provider and IS marked in the visited set
(through its own sibling worker), contradicting the claim's "never". -/
theorem claim_C5_counterexample :
    (run L4 2 (initSt "R") [0, 0, 0]).pending = [] ∧
    "B" ∈ L4 "A" ∧
    (run L4 2 (initSt "R") [0, 0, 0]).tree =
      HTree.mk [("R", HTree.mk [("A", HTree.mk [("B", HTree.mk []), ("C", HTree.mk [])]),
        ("B", HTree.mk [])])] ∧
    "B" ∈ (run L4 2 (initSt "R") [0, 0, 0]).lookups ∧
    pyLowerStrip "B" ∈ (run L4 2 (initSt "R") [0, 0, 0]).visited := by
  refine ⟨by decide, by decide, by decide, by decide, by decide⟩

/-- C5 amended: with `max_depth = D ≥ 1`, no node of the result tree lies more
than `D` levels below the root node, and a worker running at depth `D` spawns
no further work: its step removes exactly its own task from the queue, logs
and marks at most its own name (never the names it discovers), and records its
discoveries only as unexpanded leaves.  A name discovered at depth `D` can
still be looked up and marked when it is separately discovered at a shallower
depth. -/
theorem claim_C5_amended (L : String → List String) (D : Nat) (root : String)
    (sched : List Nat) (hD : 1 ≤ D) :
    (∀ c ∈ (run L D (initSt root) sched).tree.subs, treeWithinB D c.2 = true) ∧
    (∀ (s : St) (i : Nat) (t : WTask), s.pending[i]? = some t → t.depth = D →
      (step L D s i).pending = s.pending.eraseIdx i ∧
      ((step L D s i).lookups = s.lookups ∨
        (step L D s i).lookups = s.lookups ++ [t.name]) ∧
      ((step L D s i).visited = s.visited ∨
        (step L D s i).visited = s.visited ++ [pyLowerStrip t.name]) ∧
      ((step L D s i).tree = s.tree ∨
        (step L D s i).tree = insertAtT s.tree t.path (t.name, HTree.mk []) ∨
        (step L D s i).tree = insertAtT s.tree t.path (t.name, leavesNode (L t.name)))) := by
  constructor
  · intro c hc
    have hinv := (run_depthInv L D root hD sched).2
    exact forestWithinB_mem D _ hinv c hc
  · intro s i t hp hdD
    unfold step
    rw [hp]
    dsimp only
    unfold runWTask
    split_ifs with h1 h2 h3
    · exact ⟨rfl, Or.inl rfl, Or.inl rfl, Or.inl rfl⟩
    · exact absurd h2.2 (by omega)
    · exact ⟨rfl, Or.inr rfl, Or.inr rfl, Or.inr (Or.inr rfl)⟩
    · exact ⟨rfl, Or.inr rfl, Or.inr rfl, Or.inr (Or.inl rfl)⟩

/-- C5 witness: the amended statement in the section-8 scenario, at the state
where A's depth-2 worker is about to run. -/
theorem claim_C5_amended_witness :
    (∀ c ∈ (run L4 2 (initSt "R") [0, 0, 0]).tree.subs, treeWithinB 2 c.2 = true) ∧
    ((step L4 2 (run L4 2 (initSt "R") [0]) 0).pending =
      (run L4 2 (initSt "R") [0]).pending.eraseIdx 0 ∧
     ((step L4 2 (run L4 2 (initSt "R") [0]) 0).lookups =
        (run L4 2 (initSt "R") [0]).lookups ∨
      (step L4 2 (run L4 2 (initSt "R") [0]) 0).lookups =
        (run L4 2 (initSt "R") [0]).lookups ++ ["A"]) ∧
     ((step L4 2 (run L4 2 (initSt "R") [0]) 0).visited =
        (run L4 2 (initSt "R") [0]).visited ∨
      (step L4 2 (run L4 2 (initSt "R") [0]) 0).visited =
        (run L4 2 (initSt "R") [0]).visited ++ [pyLowerStrip "A"]) ∧
     ((step L4 2 (run L4 2 (initSt "R") [0]) 0).tree = (run L4 2 (initSt "R") [0]).tree ∨
      (step L4 2 (run L4 2 (initSt "R") [0]) 0).tree =
        insertAtT (run L4 2 (initSt "R") [0]).tree ["R"] ("A", HTree.mk []) ∨
      (step L4 2 (run L4 2 (initSt "R") [0]) 0).tree =
        insertAtT (run L4 2 (initSt "R") [0]).tree ["R"] ("A", leavesNode (L4 "A")))) := by
  obtain ⟨ha, hb⟩ := claim_C5_amended L4 2 "R" [0, 0, 0] (by decide)
  exact ⟨ha, hb (run L4 2 (initSt "R") [0]) 0 ⟨["R"], "A", 2⟩ (by decide) (by decide)⟩

/-- C6: a provider failure for company X degrades to "zero subsidiaries" and
is isolated: the whole traversal is identical to one where X's lookup
succeeds with an empty list (so every sibling's subtree is exactly what it
would have been), every node whose lookup failed (or found nothing) carries an
empty subsidiaries dict, and the traversal always completes — a long enough
schedule empties the queue, so a Hierarchy is always returned and no error is
raised. -/
theorem claim_C6_failure_isolation (p : String → Option (List String)) (X root : String)
    (D : Nat) (sched : List Nat) (hX : p X = none) :
    run (get_subsidiaries_single_search p) D (initSt root) sched =
      run (get_subsidiaries_single_search (fun n => if n = X then some [] else p n)) D
        (initSt root) sched ∧
    (∀ c ∈ nodesOfF
        (run (get_subsidiaries_single_search p) D (initSt root) sched).tree.subs,
      get_subsidiaries_single_search p c.1 = [] → c.2 = HTree.mk []) ∧
    (run (get_subsidiaries_single_search p) D (initSt root)
      (List.replicate (potential (get_subsidiaries_single_search p) D (initSt root))
        0)).pending = [] := by
  refine ⟨?_, ?_, ?_⟩
  · have hfun : get_subsidiaries_single_search p =
        get_subsidiaries_single_search (fun n => if n = X then some [] else p n) := by
      funext n
      by_cases hn : n = X
      · subst hn
        unfold get_subsidiaries_single_search
        rw [hX]
        dsimp only
        rw [if_pos rfl]
        simp [dedupeKeep]
      · unfold get_subsidiaries_single_search
        dsimp only
        rw [if_neg hn]
    rw [hfun]
  · intro c hc hL
    have hOK := (run_lookInv (get_subsidiaries_single_search p) D root sched).1
    have hsub := forestOKB_nodes _ _ hOK c hc
    obtain ⟨k, t⟩ := c
    obtain ⟨g⟩ := t
    cases g with
    | nil => rfl
    | cons d rest =>
      exfalso
      have hd := hsub d (List.mem_cons_self d rest)
      rw [hL] at hd
      simp at hd
  · exact run_head_schedule_terminates (get_subsidiaries_single_search p) D
      (potential (get_subsidiaries_single_search p) D (initSt root)) (initSt root)
      (le_refl _)

/-- C6 witness: the scenario `r → [x, y]` where `x`'s lookup raises while
sibling `y`'s succeeds with a child `z`. -/
theorem claim_C6_witness :
    run (get_subsidiaries_single_search p6) 3 (initSt "r") [0, 0, 0, 0] =
      run (get_subsidiaries_single_search (fun n => if n = "x" then some [] else p6 n)) 3
        (initSt "r") [0, 0, 0, 0] ∧
    (∀ c ∈ nodesOfF
        (run (get_subsidiaries_single_search p6) 3 (initSt "r") [0, 0, 0, 0]).tree.subs,
      get_subsidiaries_single_search p6 c.1 = [] → c.2 = HTree.mk []) ∧
    (run (get_subsidiaries_single_search p6) 3 (initSt "r")
      (List.replicate (potential (get_subsidiaries_single_search p6) 3 (initSt "r"))
        0)).pending = [] :=
  claim_C6_failure_isolation p6 "x" "r" 3 [0, 0, 0, 0] (by decide)

/-- C7 counterexample: with `max_depth = 0` (non-positive) the call is NOT
rejected: it returns a normal empty hierarchy, not a configuration error. -/
theorem claim_C7_counterexample :
    get_subsidiaries_hierarchy LNone "RootCo" 0 2 [] =
      (CallOutcome.ok ⟨"RootCo", [], 0⟩, [], []) ∧
    ¬ (get_subsidiaries_hierarchy LNone "RootCo" 0 2 []).1 = CallOutcome.valueError := by
  refine ⟨by decide, by decide⟩

/-- C7 amended: a non-positive `max_depth` is not rejected — the guard of
`search_level` fires before any pool is created and the call returns an empty
hierarchy with count 0, with no marking and no lookup performed; only a
non-positive `max_workers` (with `max_depth ≥ 1`) raises, via the
`ThreadPoolExecutor` constructor's `ValueError`, again before any marking or
lookup. -/
theorem claim_C7_amended (L : String → List String) (root : String)
    (max_depth max_workers : Int) (sched : List Nat) :
    (max_depth < 1 →
      get_subsidiaries_hierarchy L root max_depth max_workers sched =
        (CallOutcome.ok ⟨root, [], 0⟩, [], [])) ∧
    (1 ≤ max_depth → max_workers ≤ 0 →
      get_subsidiaries_hierarchy L root max_depth max_workers sched =
        (CallOutcome.valueError, [], [])) := by
  constructor
  · intro h
    unfold get_subsidiaries_hierarchy
    rw [if_pos h]
    show (CallOutcome.ok (assemble root (HTree.mk [])), ([] : List String),
      ([] : List String)) = _
    unfold assemble
    simp [HTree.subs]
  · intro h1 h2
    unfold get_subsidiaries_hierarchy
    rw [if_neg (by omega), if_pos h2]

/-- C7 witness: the amended statement at `max_depth = 0` and at
`max_workers = 0`. -/
theorem claim_C7_amended_witness :
    get_subsidiaries_hierarchy LNone "r" 0 2 [] =
      (CallOutcome.ok ⟨"r", [], 0⟩, [], []) ∧
    get_subsidiaries_hierarchy LNone "r" 3 0 [] = (CallOutcome.valueError, [], []) :=
  ⟨(claim_C7_amended LNone "r" 0 2 []).1 (by decide),
   (claim_C7_amended LNone "r" 3 0 []).2 (by decide) (by decide)⟩

/-- C8 counterexample: with raw variants `Ac` and `ac` (equal normalized
forms), a completed traversal contains BOTH raw forms in the tree: `Ac` as the
first-seen searched node, and the later variant `ac` as an unexpanded leaf
recorded at `max_depth` under `x` without the visited check — contradicting
"only the first-seen raw form appears anywhere in the returned tree". -/
theorem claim_C8_counterexample :
    pyLowerStrip "Ac" = pyLowerStrip "ac" ∧
    (run L8 2 (initSt "r") [0, 0, 0]).pending = [] ∧
    countKeyF "Ac" (run L8 2 (initSt "r") [0, 0, 0]).tree.subs = 1 ∧
    countKeyF "ac" (run L8 2 (initSt "r") [0, 0, 0]).tree.subs = 1 ∧
    "Ac" ∈ (run L8 2 (initSt "r") [0, 0, 0]).lookups ∧
    "ac" ∉ (run L8 2 (initSt "r") [0, 0, 0]).lookups := by
  refine ⟨by decide, by decide, by decide, by decide, by decide, by decide⟩

/-- C8 amended: raw variants with equal normalized forms are identified for
SEARCHING — in every traversal at most one raw variant per normalized form is
ever passed to the lookup provider (a later variant loses the check-and-mark
and contributes no searched node) — but a later variant discovered at
`max_depth` is still recorded as an unexpanded leaf without the visited check,
so both raw forms can appear in the returned tree (as in the `Ac`/`ac`
scenario, for every schedule that completes it). -/
theorem claim_C8_amended (L : String → List String) (D : Nat) (root : String)
    (sched : List Nat) (n : String) :
    ((run L D (initSt root) sched).lookups.filter
      (fun m => pyLowerStrip m == n)).length ≤ 1 ∧
    ((run L8 2 (initSt "r") sched).pending = [] →
      countKeyF "Ac" (run L8 2 (initSt "r") sched).tree.subs = 1 ∧
      countKeyF "ac" (run L8 2 (initSt "r") sched).tree.subs = 1 ∧
      "Ac" ∈ (run L8 2 (initSt "r") sched).lookups ∧
      "ac" ∉ (run L8 2 (initSt "r") sched).lookups) := by
  constructor
  · obtain ⟨hmap, hnodup, _, _⟩ := run_basicInv L D root sched
    rw [lookupsFor_eq_count, hmap]
    exact List.nodup_iff_count_le_one.mp hnodup n
  · intro hterm
    have hmem : run L8 2 (initSt "r") sched ∈ S8 :=
      run_mem_of_closed L8 2 S8 (closed_of_check L8 2 S8 (by decide)) sched (initSt "r")
        (by decide)
    have hall : (S8.all fun s => !s.pending.isEmpty ||
        (decide (countKeyF "Ac" s.tree.subs = 1) &&
         decide (countKeyF "ac" s.tree.subs = 1) &&
         decide ("Ac" ∈ s.lookups) && decide ("ac" ∉ s.lookups))) = true := by decide
    have h := List.all_eq_true.mp hall _ hmem
    simp only [hterm, List.isEmpty_nil, Bool.not_true, Bool.false_or, Bool.and_eq_true,
      decide_eq_true_eq] at h
    tauto

/-- C8 witness: the amended statement in the `Ac`/`ac` scenario. -/
theorem claim_C8_amended_witness :
    ((run L8 2 (initSt "r") [0, 0, 0]).lookups.filter
      (fun m => pyLowerStrip m == "ac")).length ≤ 1 ∧
    (countKeyF "Ac" (run L8 2 (initSt "r") [0, 0, 0]).tree.subs = 1 ∧
     countKeyF "ac" (run L8 2 (initSt "r") [0, 0, 0]).tree.subs = 1 ∧
     "Ac" ∈ (run L8 2 (initSt "r") [0, 0, 0]).lookups ∧
     "ac" ∉ (run L8 2 (initSt "r") [0, 0, 0]).lookups) := by
  obtain ⟨h1, h2⟩ := claim_C8_amended L8 2 "r" [0, 0, 0] "ac"
  exact ⟨h1, h2 (by decide)⟩
